import Mathlib

/-!
A shallow embedding of the audio timeline editor
(src/components/Timeline.tsx, src/services/audioUtils.ts): the clip data
model, the playback scheduler, the offline mixdown, and the WAV/MP3
encoding paths.  Time offsets, durations and samples are modelled as
rationals; byte buffers as lists of naturals.  External collaborators
(the decoded-buffer cache, the lamejs encoder) enter as parameters.
-/

namespace CreateSpeech

/-- An audio asset (`GeneratedAudio` in types.ts); `duration` is `none`
while still unresolved (the JS code coalesces a missing duration with
`audio.duration || 0`). -/
structure GeneratedAudio where
  id : Nat
  duration : Option ℚ
  deriving DecidableEq, Repr

/-- The coalesced duration `audio.duration || 0` used throughout Timeline.tsx. -/
def GeneratedAudio.dur (a : GeneratedAudio) : ℚ :=
  a.duration.getD 0

/-- A clip on the timeline (`TimelineClip` in types.ts). -/
structure TimelineClip where
  id : Nat
  audioId : Nat
  startTime : ℚ
  audio : GeneratedAudio
  deriving DecidableEq, Repr

/-- The comparison the code passes to `Array.prototype.sort`:
`(a, b) => a.startTime - b.startTime`, i.e. ascending start offset. -/
def clipLe (a b : TimelineClip) : Bool :=
  decide (a.startTime ≤ b.startTime)

/-- The stable ascending sort `[...].sort((a, b) => a.startTime - b.startTime)`,
sort by start offset, as performed after every clip-list update. -/
def sortClips (l : List TimelineClip) : List TimelineClip :=
  l.mergeSort clipLe

/-- JS `Math.max(...xs)` over a spread list; the code only applies it to
nonempty lists (an empty list here yields the base value 0). -/
def listMax : List ℚ → ℚ
  | [] => 0
  | x :: xs => xs.foldl max x

/-- The code's `Math.max(...clips.map(c => c.startTime + (c.audio.duration || 0)))`. -/
def totalDuration (clips : List TimelineClip) : ℚ :=
  listMax (clips.map fun c => c.startTime + c.audio.dur)

theorem le_foldl_max (x : ℚ) (xs : List ℚ) : x ≤ xs.foldl max x := by
  induction xs generalizing x with
  | nil => simp
  | cons y ys ih => exact le_trans (le_max_left x y) (ih (max x y))

theorem mem_le_foldl_max {y : ℚ} (xs : List ℚ) :
    ∀ x : ℚ, y ∈ xs → y ≤ xs.foldl max x := by
  induction xs with
  | nil => intro x h; cases h
  | cons z zs ih =>
    intro x h
    rcases List.mem_cons.mp h with h | h
    · subst h
      exact le_trans (le_max_right x y) (le_foldl_max _ _)
    · exact ih _ h

theorem foldl_max_mem (x : ℚ) (xs : List ℚ) :
    xs.foldl max x = x ∨ xs.foldl max x ∈ xs := by
  induction xs generalizing x with
  | nil => left; rfl
  | cons y ys ih =>
    rw [List.foldl_cons]
    rcases ih (max x y) with h | h
    · rcases max_choice x y with hm | hm
      · left; rw [h, hm]
      · right; rw [h, hm]; exact List.mem_cons_self _ _
    · right; exact List.mem_cons_of_mem _ h

theorem le_listMax {y : ℚ} {xs : List ℚ} (h : y ∈ xs) : y ≤ listMax xs := by
  cases xs with
  | nil => cases h
  | cons x xs =>
    rcases List.mem_cons.mp h with h | h
    · subst h; exact le_foldl_max _ _
    · exact mem_le_foldl_max _ _ h

theorem listMax_mem {xs : List ℚ} (h : xs ≠ []) : listMax xs ∈ xs := by
  cases xs with
  | nil => exact absurd rfl h
  | cons x xs =>
    rcases foldl_max_mem x xs with h | h
    · rw [listMax, h]; exact List.mem_cons_self _ _
    · exact List.mem_cons_of_mem _ h

theorem listMax_perm {xs ys : List ℚ} (h : xs.Perm ys) (hne : xs ≠ []) :
    listMax xs = listMax ys := by
  have hne' : ys ≠ [] := fun hy => hne (List.Perm.eq_nil (hy ▸ h))
  exact le_antisymm
    (le_listMax (h.mem_iff.mp (listMax_mem hne)))
    (le_listMax (h.mem_iff.mpr (listMax_mem hne')))

theorem totalDuration_sortClips (clips : List TimelineClip) (h : clips ≠ []) :
    totalDuration (sortClips clips) = totalDuration clips := by
  apply listMax_perm
  · exact ((List.mergeSort_perm clips clipLe).map _)
  · simp only [ne_eq, List.map_eq_nil_iff, sortClips]
    intro hnil
    exact h (List.Perm.eq_nil (hnil ▸ List.mergeSort_perm clips clipLe).symm)

/-! ### Timed insertion (`addAudioToTimelineAtTime`, Timeline.tsx lines 258-294)

Both branches (duration already known, or resolved asynchronously via a
temporary audio element) call the `addClip` closure, which builds the new
clip with `startTime: startTime` — the supplied offset is stored unchanged,
with no clamping — and then sorts the resulting list. -/

def addAudioToTimelineAtTime (clips : List TimelineClip) (newId : Nat)
    (audio : GeneratedAudio) (startTime : ℚ) : List TimelineClip :=
  sortClips (clips ++ [⟨newId, audio.id, startTime, audio⟩])

def audioEx : GeneratedAudio := ⟨7, some 2⟩

/-- C4 counterexample: timed insertion at supplied offset −1 stores −1 as the
clip's start offset, not max(0, −1) = 0 — the claimed clamping does not occur. -/
theorem addAtTime_no_clamp_counterexample :
    (addAudioToTimelineAtTime [] 1 audioEx (-1)).map TimelineClip.startTime = [-1] ∧
    ([-1] : List ℚ) ≠ [max 0 (-1)] := by
  refine ⟨?_, by norm_num⟩
  simp [addAudioToTimelineAtTime, sortClips]

/-- C4 (amended): the timed-insertion operation stores the supplied start
offset unchanged — the result is a permutation of the previous clips plus a
clip whose startTime is exactly the supplied offset, negative values included. -/
theorem addAtTime_stores_offset_unchanged (clips : List TimelineClip)
    (newId : Nat) (audio : GeneratedAudio) (t : ℚ) :
    (addAudioToTimelineAtTime clips newId audio t).Perm
      (clips ++ [⟨newId, audio.id, t, audio⟩]) :=
  List.mergeSort_perm _ _

/-! ### Append (`addAudioToTimeline`, Timeline.tsx lines 211-255)

The function reads the current clips, computes `lastClipEnd` (the total
duration) at call time, and builds an `addClip` closure over that value.
If the asset's duration is known the clip is added at once; otherwise a
temporary audio element resolves the duration asynchronously and the
closure then inserts the clip — still at the captured `lastClipEnd`. -/

/-- The data captured by the `addClip` closure for a deferred append. -/
structure PendingAppend where
  capturedStart : ℚ
  audio : GeneratedAudio
  deriving DecidableEq, Repr

/-- The immediate effect of `addAudioToTimeline`: either a clip added now, or
a pending insertion awaiting duration resolution. -/
inductive AppendAction where
  | immediate (clip : TimelineClip)
  | deferred (pending : PendingAppend)
  deriving DecidableEq, Repr

def addAudioToTimeline (clips : List TimelineClip) (newId : Nat)
    (audio : GeneratedAudio) : AppendAction :=
  let lastClipEnd := if clips.length > 0 then totalDuration clips else 0
  let duration := audio.dur
  if duration = 0 then AppendAction.deferred ⟨lastClipEnd, audio⟩
  else AppendAction.immediate ⟨newId, audio.id, lastClipEnd, audio⟩

/-- The loadedmetadata handler: `addClip({...audio, duration})` runs against
whatever clip list exists at resolution time, inserting at the captured
offset and re-sorting. -/
def resolvePendingAppend (pending : PendingAppend) (newId : Nat)
    (resolvedDuration : ℚ) (clipsAtResolution : List TimelineClip) :
    List TimelineClip :=
  sortClips (clipsAtResolution ++
    [⟨newId, pending.audio.id, pending.capturedStart,
      ⟨pending.audio.id, some resolvedDuration⟩⟩])

/-- An asset whose duration is still unknown at append time. -/
def audioU : GeneratedAudio := ⟨3, none⟩

/-- A clip of duration 5 at offset 0, added while the append was pending. -/
def clipC5 : TimelineClip := ⟨10, 11, 0, ⟨11, some 5⟩⟩

/-- C5 counterexample: an append called on an empty timeline captures offset 0;
a 5-second clip arrives before the duration resolves, so the total duration at
resolution is 5 — yet the resolved clip is inserted at offset 0, the total
duration at call time, not 5. -/
theorem append_resolution_counterexample :
    addAudioToTimeline [] 9 audioU = AppendAction.deferred ⟨0, audioU⟩ ∧
    totalDuration [clipC5] = 5 ∧
    (⟨9, 3, 0, ⟨3, some 2⟩⟩ : TimelineClip) ∈
      resolvePendingAppend ⟨0, audioU⟩ 9 2 [clipC5] ∧
    (0 : ℚ) ≠ 5 := by
  refine ⟨by decide, ?_, ?_, by norm_num⟩
  · simp [totalDuration, listMax, clipC5, GeneratedAudio.dur]
  · simp [resolvePendingAppend, sortClips, audioU]

/-- C5 (amended): when the asset's duration is unknown, the clip is inserted
only once the duration resolves, and its start offset equals the timeline's
total duration captured at the time of the original call — irrespective of
the clips present at resolution time. -/
theorem append_deferred_uses_call_time_total (clips : List TimelineClip)
    (newId : Nat) (audio : GeneratedAudio) (h : audio.dur = 0) :
    addAudioToTimeline clips newId audio =
      AppendAction.deferred ⟨totalDuration clips, audio⟩ ∧
    ∀ (clipsAtResolution : List TimelineClip) (d : ℚ),
      (⟨newId, audio.id, totalDuration clips, ⟨audio.id, some d⟩⟩ : TimelineClip) ∈
        resolvePendingAppend ⟨totalDuration clips, audio⟩ newId d clipsAtResolution := by
  constructor
  · have hcap : (if clips.length > 0 then totalDuration clips else 0)
        = totalDuration clips := by
      cases clips with
      | nil => simp [totalDuration, listMax]
      | cons c cs => simp
    simp [addAudioToTimeline, h, hcap]
  · intro clipsAtResolution d
    simp [resolvePendingAppend, sortClips]

/-- C5 witness: the amended theorem applied to an empty timeline and an
unresolved-duration asset. -/
theorem append_deferred_witness :
    audioU.dur = 0 ∧
    addAudioToTimeline [] 9 audioU =
      AppendAction.deferred ⟨totalDuration [], audioU⟩ :=
  ⟨by decide, (append_deferred_uses_call_time_total [] 9 audioU (by decide)).1⟩

/-! ### Mixdown (the buffer-filling phase of `exportAudio`, Timeline.tsx
lines 545-576)

The code allocates `Math.ceil(totalDuration * sampleRate)` zeroed mono
samples and, for each clip in start order, adds
`sourceData[i]` into `channelData[startSample + i]` for
`i < Math.min(sourceData.length, totalSamples - startSample)`, where
`startSample = Math.floor(clip.startTime * sampleRate)`; out-of-range
writes of a JS typed array are dropped, which `List.set` mirrors. -/

/-- The value `Math.floor(clip.startTime * sampleRate)` — the starting sample index the
code computes for a clip. -/
def startSampleIndex (sampleRate : ℕ) (c : TimelineClip) : ℤ :=
  Int.floor (c.startTime * sampleRate)

/-- The inner write loop: `channelData[pos + k] += sourceData[k]`, one source
sample at a time; a write at a negative or out-of-range index is dropped. -/
def writeSamples : List ℚ → ℤ → List ℚ → List ℚ
  | channelData, _, [] => channelData
  | channelData, pos, s :: rest =>
      writeSamples
        (if 0 ≤ pos then
          channelData.set pos.toNat (channelData.getD pos.toNat 0 + s)
         else channelData)
        (pos + 1) rest

/-- One clip's pass of the fill loop: the source is truncated to
`totalSamples - startSample` samples (the code's `length` bound) and added
starting at `startSample`. -/
def mixAddClip (channelData : List ℚ) (startSample : ℤ)
    (sourceData : List ℚ) : List ℚ :=
  writeSamples channelData startSample
    (sourceData.take ((channelData.length : ℤ) - startSample).toNat)

/-- The body of the `for (const clip of sortedClips)` loop. -/
def mixStep (buffers : Nat → List ℚ) (sampleRate : ℕ)
    (channelData : List ℚ) (clip : TimelineClip) : List ℚ :=
  mixAddClip channelData (startSampleIndex sampleRate clip)
    (buffers clip.audioId)

/-- The buffer-filling phase of `exportAudio`: a zeroed buffer of
`ceil(totalDuration * sampleRate)` samples with every clip's source added in. -/
def exportMixdown (buffers : Nat → List ℚ) (sampleRate : ℕ)
    (clips : List TimelineClip) : List ℚ :=
  (sortClips clips).foldl (mixStep buffers sampleRate)
    (List.replicate
      (Int.ceil (totalDuration (sortClips clips) * sampleRate)).toNat 0)

/-- Output index `j` lies in the sample range that clip `c` writes to. -/
def clipCovers (buffers : Nat → List ℚ) (sampleRate : ℕ)
    (c : TimelineClip) (j : ℕ) : Prop :=
  startSampleIndex sampleRate c ≤ (j : ℤ) ∧
    (j : ℤ) < startSampleIndex sampleRate c + (buffers c.audioId).length

instance (buffers : Nat → List ℚ) (sampleRate : ℕ) (c : TimelineClip)
    (j : ℕ) : Decidable (clipCovers buffers sampleRate c j) :=
  inferInstanceAs (Decidable (_ ∧ _))

/-- The sample clip `c` contributes to output index `j`
(0 outside the clip's range). -/
def clipContribution (buffers : Nat → List ℚ) (sampleRate : ℕ)
    (c : TimelineClip) (j : ℕ) : ℚ :=
  if startSampleIndex sampleRate c ≤ (j : ℤ) ∧
      (j : ℤ) < startSampleIndex sampleRate c + (buffers c.audioId).length then
    (buffers c.audioId).getD ((j : ℤ) - startSampleIndex sampleRate c).toNat 0
  else 0

theorem getD_set_self (l : List ℚ) (k : ℕ) (v : ℚ) (h : k < l.length) :
    (l.set k v).getD k 0 = v := by
  simp [List.getD_eq_getElem?_getD, List.getElem?_set_self h]

theorem getD_set_ne (l : List ℚ) (k j : ℕ) (v : ℚ) (h : k ≠ j) :
    (l.set k v).getD j 0 = l.getD j 0 := by
  simp [List.getD_eq_getElem?_getD, List.getElem?_set_ne h]

theorem writeSamples_length (src : List ℚ) :
    ∀ (cd : List ℚ) (pos : ℤ), (writeSamples cd pos src).length = cd.length := by
  induction src with
  | nil => intro cd pos; rfl
  | cons s rest ih =>
    intro cd pos
    rw [writeSamples, ih]
    split <;> simp

theorem writeSamples_getD (src : List ℚ) :
    ∀ (cd : List ℚ) (pos : ℤ) (j : ℕ), (j : ℤ) < (cd.length : ℤ) →
    (writeSamples cd pos src).getD j 0 =
      cd.getD j 0 +
        (if pos ≤ (j : ℤ) ∧ (j : ℤ) < pos + src.length then
          src.getD ((j : ℤ) - pos).toNat 0 else 0) := by
  induction src with
  | nil =>
    intro cd pos j hj
    rw [writeSamples, if_neg (by simp)]
    rw [add_zero]
  | cons s rest ih =>
    intro cd pos j hj
    rw [writeSamples]
    have hlen : (((if 0 ≤ pos then
        cd.set pos.toNat (cd.getD pos.toNat 0 + s) else cd).length : ℕ) : ℤ)
        = (cd.length : ℤ) := by
      split <;> simp
    rcases lt_trichotomy (j : ℤ) pos with hcmp | hcmp | hcmp
    · have h1 : (if 0 ≤ pos then
          cd.set pos.toNat (cd.getD pos.toNat 0 + s) else cd).getD j 0
          = cd.getD j 0 := by
        split
        · exact getD_set_ne _ _ _ _ (by omega)
        · rfl
      rw [ih _ (pos + 1) j (by rw [hlen]; exact hj), h1,
        if_neg (by push_cast [List.length_cons]; omega), if_neg (by push_cast [List.length_cons]; omega)]
    · have hpos : 0 ≤ pos := by omega
      have h1 : (if 0 ≤ pos then
          cd.set pos.toNat (cd.getD pos.toNat 0 + s) else cd).getD j 0
          = cd.getD j 0 + s := by
        rw [if_pos hpos, show pos.toNat = j by omega]
        exact getD_set_self _ _ _ (by omega)
      rw [ih _ (pos + 1) j (by rw [hlen]; exact hj), h1,
        if_neg (by push_cast [List.length_cons]; omega), add_zero,
        if_pos (by push_cast [List.length_cons]; omega),
        show ((j : ℤ) - pos).toNat = 0 by omega, List.getD_cons_zero]
    · have h1 : (if 0 ≤ pos then
          cd.set pos.toNat (cd.getD pos.toNat 0 + s) else cd).getD j 0
          = cd.getD j 0 := by
        split
        · exact getD_set_ne _ _ _ _ (by omega)
        · rfl
      rw [ih _ (pos + 1) j (by rw [hlen]; exact hj), h1]
      by_cases hub : (j : ℤ) < pos + 1 + rest.length
      · rw [if_pos (by push_cast [List.length_cons]; omega), if_pos (by push_cast [List.length_cons]; omega),
          show ((j : ℤ) - pos).toNat = ((j : ℤ) - (pos + 1)).toNat + 1 by omega,
          List.getD_cons_succ]
      · rw [if_neg (by push_cast [List.length_cons]; push_cast at hub; omega),
          if_neg (by push_cast [List.length_cons]; push_cast at hub; omega)]

theorem mixAddClip_length (cd : List ℚ) (start : ℤ) (src : List ℚ) :
    (mixAddClip cd start src).length = cd.length :=
  writeSamples_length _ _ _

theorem mixAddClip_getD (cd : List ℚ) (start : ℤ) (src : List ℚ) (j : ℕ)
    (hj : j < cd.length) :
    (mixAddClip cd start src).getD j 0 =
      cd.getD j 0 +
        (if start ≤ (j : ℤ) ∧ (j : ℤ) < start + src.length then
          src.getD ((j : ℤ) - start).toNat 0 else 0) := by
  rw [mixAddClip, writeSamples_getD _ _ _ _ (by exact_mod_cast hj)]
  congr 1
  by_cases hc : start ≤ (j : ℤ) ∧ (j : ℤ) < start + src.length
  · have hin : start ≤ (j : ℤ) ∧
        (j : ℤ) < start + (src.take ((cd.length : ℤ) - start).toNat).length := by
      rw [List.length_take]
      push_cast
      omega
    have hlt : ((j : ℤ) - start).toNat < ((cd.length : ℤ) - start).toNat := by
      omega
    rw [if_pos hin, if_pos hc]
    simp [List.getD_eq_getElem?_getD, List.getElem?_take_of_lt hlt]
  · have hout : ¬ (start ≤ (j : ℤ) ∧
        (j : ℤ) < start + (src.take ((cd.length : ℤ) - start).toNat).length) := by
      rw [List.length_take]
      push_cast
      push_cast at hc
      omega
    rw [if_neg hout, if_neg hc]

theorem foldl_mixStep_length (buffers : Nat → List ℚ) (sampleRate : ℕ)
    (cl : List TimelineClip) :
    ∀ cd : List ℚ, (cl.foldl (mixStep buffers sampleRate) cd).length = cd.length := by
  induction cl with
  | nil => intro cd; rfl
  | cons c cs ih =>
    intro cd
    rw [List.foldl_cons, ih]
    exact mixAddClip_length _ _ _

theorem foldl_mixStep_getD (buffers : Nat → List ℚ) (sampleRate : ℕ)
    (cl : List TimelineClip) :
    ∀ (cd : List ℚ) (j : ℕ), j < cd.length →
    (cl.foldl (mixStep buffers sampleRate) cd).getD j 0 =
      cd.getD j 0 + (cl.map fun c => clipContribution buffers sampleRate c j).sum := by
  induction cl with
  | nil => intro cd j hj; simp
  | cons c cs ih =>
    intro cd j hj
    rw [List.foldl_cons,
      ih _ j (by rw [show (mixStep buffers sampleRate cd c).length = cd.length
        from mixAddClip_length _ _ _]; exact hj),
      show (mixStep buffers sampleRate cd c).getD j 0
          = cd.getD j 0 + clipContribution buffers sampleRate c j
        from mixAddClip_getD _ _ _ _ hj,
      List.map_cons, List.sum_cons, add_assoc]

theorem exportMixdown_length (buffers : Nat → List ℚ) (sampleRate : ℕ)
    (clips : List TimelineClip) :
    (exportMixdown buffers sampleRate clips).length
      = (Int.ceil (totalDuration (sortClips clips) * sampleRate)).toNat := by
  rw [exportMixdown, foldl_mixStep_length, List.length_replicate]

theorem clipContribution_of_not_covers (buffers : Nat → List ℚ)
    (sampleRate : ℕ) (c : TimelineClip) (j : ℕ)
    (h : ¬ clipCovers buffers sampleRate c j) :
    clipContribution buffers sampleRate c j = 0 := by
  unfold clipCovers at h
  unfold clipContribution
  exact if_neg h

theorem clipContribution_of_covers (buffers : Nat → List ℚ)
    (sampleRate : ℕ) (c : TimelineClip) (j : ℕ)
    (h : clipCovers buffers sampleRate c j) :
    clipContribution buffers sampleRate c j =
      (buffers c.audioId).getD ((j : ℤ) - startSampleIndex sampleRate c).toNat 0 := by
  unfold clipCovers at h
  unfold clipContribution
  exact if_pos h

theorem sum_map_eq_of_single (f : TimelineClip → ℚ) :
    ∀ (l : List TimelineClip) (c : TimelineClip), c ∈ l → l.Nodup →
    (∀ c' ∈ l, c' ≠ c → f c' = 0) → (l.map f).sum = f c := by
  intro l
  induction l with
  | nil => intro c hc; cases hc
  | cons a as ih =>
    intro c hc hnd hz
    rcases List.mem_cons.mp hc with h | h
    · subst h
      rw [List.map_cons, List.sum_cons]
      have hz' : (as.map f).sum = 0 := by
        apply List.sum_eq_zero
        intro x hx
        rcases List.mem_map.mp hx with ⟨c', hc', rfl⟩
        exact hz c' (List.mem_cons_of_mem _ hc')
          (fun he => (List.nodup_cons.mp hnd).1 (he ▸ hc'))
      rw [hz', add_zero]
    · rw [List.map_cons, List.sum_cons,
        ih c h (List.nodup_cons.mp hnd).2
          (fun c' hc' hne' => hz c' (List.mem_cons_of_mem _ hc') hne'),
        hz a (List.mem_cons_self _ _)
          (fun he => (List.nodup_cons.mp hnd).1 (he ▸ h)), zero_add]

/-- C2: the mixdown fills a buffer of ceil(totalDuration · sampleRate)
samples in which every index holds the plain arithmetic sum of the
contributions of the clips whose sample range covers it — 0 where no clip
covers the index, the unmodified source sample where exactly one does, and
the unclamped sum where clips overlap. -/
theorem exportMixdown_additive (buffers : Nat → List ℚ) (sampleRate : ℕ)
    (clips : List TimelineClip) (hne : clips ≠ []) :
    (exportMixdown buffers sampleRate clips).length
        = (Int.ceil (totalDuration clips * sampleRate)).toNat ∧
    (∀ j : ℕ, j < (Int.ceil (totalDuration clips * sampleRate)).toNat →
      (exportMixdown buffers sampleRate clips).getD j 0
        = (clips.map fun c => clipContribution buffers sampleRate c j).sum) ∧
    (∀ j : ℕ, j < (Int.ceil (totalDuration clips * sampleRate)).toNat →
      (∀ c ∈ clips, ¬ clipCovers buffers sampleRate c j) →
      (exportMixdown buffers sampleRate clips).getD j 0 = 0) ∧
    (∀ j : ℕ, j < (Int.ceil (totalDuration clips * sampleRate)).toNat →
      ∀ c ∈ clips, clips.Nodup → clipCovers buffers sampleRate c j →
      (∀ c' ∈ clips, c' ≠ c → ¬ clipCovers buffers sampleRate c' j) →
      (exportMixdown buffers sampleRate clips).getD j 0
        = (buffers c.audioId).getD
            ((j : ℤ) - startSampleIndex sampleRate c).toNat 0) := by
  have htd : totalDuration (sortClips clips) = totalDuration clips :=
    totalDuration_sortClips clips hne
  have hlen : (exportMixdown buffers sampleRate clips).length
      = (Int.ceil (totalDuration clips * sampleRate)).toNat := by
    rw [exportMixdown_length, htd]
  have hsum : ∀ j : ℕ, j < (Int.ceil (totalDuration clips * sampleRate)).toNat →
      (exportMixdown buffers sampleRate clips).getD j 0
        = (clips.map fun c => clipContribution buffers sampleRate c j).sum := by
    intro j hj
    rw [exportMixdown,
      foldl_mixStep_getD _ _ _ _ j (by rw [List.length_replicate, htd]; exact hj)]
    have h0 : (List.replicate
        (Int.ceil (totalDuration (sortClips clips) * sampleRate)).toNat
        (0 : ℚ)).getD j 0 = 0 := by
      simp only [List.getD_eq_getElem?_getD, List.getElem?_replicate]
      split <;> rfl
    rw [h0, zero_add]
    exact List.Perm.sum_eq ((List.mergeSort_perm clips clipLe).map _)
  refine ⟨hlen, hsum, ?_, ?_⟩
  · intro j hj hnone
    rw [hsum j hj]
    apply List.sum_eq_zero
    intro x hx
    rcases List.mem_map.mp hx with ⟨c, hc, rfl⟩
    exact clipContribution_of_not_covers _ _ _ _ (hnone c hc)
  · intro j hj c hc hnd hcov huniq
    rw [hsum j hj,
      sum_map_eq_of_single _ clips c hc hnd
        (fun c' hc' hne' =>
          clipContribution_of_not_covers _ _ _ _ (huniq c' hc' hne')),
      clipContribution_of_covers _ _ _ _ hcov]

/-- A one-clip, empty-source instance for the mixdown theorem. -/
def clipW : TimelineClip := ⟨1, 2, 0, ⟨2, some 1⟩⟩

def bufW : Nat → List ℚ := fun _ => []

/-- C2 witness: the mixdown theorem applied to a concrete one-clip timeline. -/
theorem exportMixdown_additive_witness :
    ([clipW] : List TimelineClip) ≠ [] ∧
    (exportMixdown bufW 1 [clipW]).length
      = (Int.ceil (totalDuration [clipW] * 1)).toNat :=
  ⟨by simp, (exportMixdown_additive bufW 1 [clipW] (by simp)).1⟩

/-! ### Starting sample index: floor, not round (exportAudio line 567) -/

/-- A clip starting at 0.75 s with a one-sample, one-second source. -/
def clipC6 : TimelineClip := ⟨1, 4, 3/4, ⟨4, some 1⟩⟩

def bufC6 : Nat → List ℚ := fun _ => [5]

theorem clipC6_startIdx : startSampleIndex 2 clipC6 = 1 := by
  rw [startSampleIndex, Int.floor_eq_iff]
  constructor <;> norm_num [clipC6]

theorem clipC6_totalSamples :
    (Int.ceil (totalDuration [clipC6] * (2 : ℕ))).toNat = 4 := by
  have h : totalDuration [clipC6] = 7/4 := by
    simp [totalDuration, listMax, clipC6, GeneratedAudio.dur]
    norm_num
  rw [h, show (Int.ceil ((7/4 : ℚ) * (2 : ℕ))) = 4 by
    rw [Int.ceil_eq_iff]
    norm_num]
  rfl

theorem clipC6_mixdown : exportMixdown bufC6 2 [clipC6] = [0, 5, 0, 0] := by
  have hsort : sortClips [clipC6] = [clipC6] := List.mergeSort_singleton _
  rw [exportMixdown, hsort, clipC6_totalSamples, List.foldl_cons, List.foldl_nil,
    mixStep, clipC6_startIdx, mixAddClip]
  norm_num [bufC6, writeSamples, List.replicate, List.set, List.getD, List.take]

/-- C6 counterexample: with sample rate 2 and a clip at start offset 0.75 s,
the claimed starting index round(0.75·2) is 2, but the code places the
clip's first source sample (5) at floor(0.75·2) = 1: the mixdown output is
[0, 5, 0, 0], whose index 2 holds 0, not the source sample. -/
theorem mixdown_round_counterexample :
    exportMixdown bufC6 2 [clipC6] = [0, 5, 0, 0] ∧
    round (clipC6.startTime * (2 : ℕ)) = (2 : ℤ) ∧
    (exportMixdown bufC6 2 [clipC6]).getD 2 0 = 0 ∧
    (bufC6 clipC6.audioId).getD 0 0 = 5 ∧
    (0 : ℚ) ≠ 5 ∧
    startSampleIndex 2 clipC6 = 1 := by
  refine ⟨clipC6_mixdown, ?_, ?_, by norm_num [bufC6], by norm_num, clipC6_startIdx⟩
  · rw [round_eq, Int.floor_eq_iff]
    constructor <;> norm_num [clipC6]
  · rw [clipC6_mixdown]
    rfl

/-- C6 (amended): the mixdown places each clip's samples starting at output
index floor(clip.start · sample_rate) — for a single-clip timeline, output
index ⌊start·rate⌋ + i holds source sample i, and every output index below
⌊start·rate⌋ is silence. -/
theorem exportMixdown_floor_placement (buffers : Nat → List ℚ)
    (sampleRate : ℕ) (c : TimelineClip) (hstart : 0 ≤ c.startTime) :
    (∀ i : ℕ, i < (buffers c.audioId).length →
      (startSampleIndex sampleRate c).toNat + i
          < (exportMixdown buffers sampleRate [c]).length →
      (exportMixdown buffers sampleRate [c]).getD
          ((startSampleIndex sampleRate c).toNat + i) 0
        = (buffers c.audioId).getD i 0) ∧
    (∀ j : ℕ, (j : ℤ) < startSampleIndex sampleRate c →
      (exportMixdown buffers sampleRate [c]).getD j 0 = 0) := by
  have hfl : 0 ≤ startSampleIndex sampleRate c :=
    Int.le_floor.mpr (by positivity)
  have hsort : sortClips [c] = [c] := List.mergeSort_singleton _
  have hlen := exportMixdown_length buffers sampleRate [c]
  have hgd : ∀ j : ℕ, j < (exportMixdown buffers sampleRate [c]).length →
      (exportMixdown buffers sampleRate [c]).getD j 0
        = clipContribution buffers sampleRate c j := by
    intro j hj
    rw [hlen, hsort] at hj
    conv =>
      lhs
      rw [exportMixdown, hsort,
        foldl_mixStep_getD _ _ _ _ j (by rw [List.length_replicate]; exact hj)]
    rw [List.map_cons, List.map_nil, List.sum_cons, List.sum_nil, add_zero]
    have h0 : (List.replicate
        (Int.ceil (totalDuration (sortClips [c]) * sampleRate)).toNat
        (0 : ℚ)).getD j 0 = 0 := by
      simp only [List.getD_eq_getElem?_getD, List.getElem?_replicate]
      split <;> rfl
    rw [hsort] at h0
    rw [h0, zero_add]
  constructor
  · intro i hi hidx
    rw [hgd _ hidx,
      clipContribution_of_covers _ _ _ _ ⟨by omega, by omega⟩,
      show ((((startSampleIndex sampleRate c).toNat + i : ℕ) : ℤ)
          - startSampleIndex sampleRate c).toNat = i by omega]
  · intro j hj
    by_cases hjl : j < (exportMixdown buffers sampleRate [c]).length
    · rw [hgd _ hjl,
        clipContribution_of_not_covers _ _ _ _ (fun hcov => by have h1 := hcov.1; omega)]
    · rw [List.getD_eq_getElem?_getD, List.getElem?_eq_none (by omega)]
      rfl

/-- C6 witness: the amended floor-placement theorem applied to the concrete
clip at 0.75 s with sample rate 2. -/
theorem exportMixdown_floor_placement_witness :
    (0 : ℚ) ≤ clipC6.startTime ∧
    (exportMixdown bufC6 2 [clipC6]).getD
        ((startSampleIndex 2 clipC6).toNat + 0) 0
      = (bufC6 clipC6.audioId).getD 0 0 :=
  ⟨by norm_num [clipC6],
    (exportMixdown_floor_placement bufC6 2 clipC6 (by norm_num [clipC6])).1 0
      (by norm_num [bufC6])
      (by rw [exportMixdown_length,
            show sortClips [clipC6] = [clipC6] from List.mergeSort_singleton _,
            clipC6_totalSamples, clipC6_startIdx]
          norm_num)⟩

/-! ### WAV container (audioBufferToWav, Timeline.tsx lines 720-759, and
pcmToWav, audioUtils.ts lines 22-54)

An ArrayBuffer is a zero-initialized byte list; DataView.setUintN /
setInt16 with littleEndian = true store the value's little-endian bytes at
the given offset; Int16 values are truncated toward zero and wrapped to
two's complement before being stored. -/

/-- Byte k of a little-endian encoding: value / 256^k mod 256. -/
def leByte (v k : ℕ) : ℕ := v / 256 ^ k % 256

def setUint8 (b : List ℕ) (off v : ℕ) : List ℕ := b.set off (v % 256)

def setUint16 (b : List ℕ) (off v : ℕ) : List ℕ :=
  (b.set off (leByte v 0)).set (off + 1) (leByte v 1)

def setUint32 (b : List ℕ) (off v : ℕ) : List ℕ :=
  (((b.set off (leByte v 0)).set (off + 1) (leByte v 1)).set
      (off + 2) (leByte v 2)).set (off + 3) (leByte v 3)

/-- DataView.setInt16 little-endian: truncated 16-bit two's complement. -/
def setInt16 (b : List ℕ) (off : ℕ) (v : ℤ) : List ℕ :=
  (b.set off ((v % 65536).toNat % 256)).set (off + 1) ((v % 65536).toNat / 256)

/-- The writeString helper: one setUint8 of the char code per character. -/
def writeChars (b : List ℕ) (off : ℕ) : List Char → List ℕ
  | [] => b
  | ch :: rest => writeChars (setUint8 b off ch.toNat) (off + 1) rest

def writeString (b : List ℕ) (off : ℕ) (s : String) : List ℕ :=
  writeChars b off s.data

/-- Little-endian byte lists, the layout language of the specification. -/
def u16le (v : ℕ) : List ℕ := [leByte v 0, leByte v 1]

def u32le (v : ℕ) : List ℕ := [leByte v 0, leByte v 1, leByte v 2, leByte v 3]

def i16le (v : ℤ) : List ℕ := [(v % 65536).toNat % 256, (v % 65536).toNat / 256]

def asciiBytes (s : String) : List ℕ := s.data.map fun ch => ch.toNat % 256

/-- A decoded PCM buffer (the WebAudio AudioBuffer the encoders consume). -/
structure AudioBuffer where
  sampleRate : ℕ
  length : ℕ
  channels : List (List ℚ)
  deriving DecidableEq, Repr

/-- A byte blob with its MIME type. -/
structure Blob where
  bytes : List ℕ
  type : String
  deriving DecidableEq, Repr

/-- Truncation toward zero, as JS applies when storing a number as Int16. -/
def ratTrunc (q : ℚ) : ℤ := if q < 0 then Int.ceil q else Int.floor q

/-- The 16-bit quantization both encoders apply:
s = Math.max(-1, Math.min(1, x)); s < 0 ? s * 0x8000 : s * 0x7FFF. -/
def jsInt16 (x : ℚ) : ℤ :=
  let s := max (-1) (min 1 x)
  ratTrunc (if s < 0 then s * 32768 else s * 32767)

/-- The quantized samples in the write order of the WAV data loop:
sample index outer, channel inner. -/
def interleavedSamples (buffer : AudioBuffer) : List ℤ :=
  (List.range buffer.length).flatMap fun i =>
    buffer.channels.map fun chData => jsInt16 (chData.getD i 0)

/-- The data-section loop: setInt16 at offset, offset += 2, per sample. -/
def writeInterleaved (view : List ℕ) (off : ℕ) : List ℤ → List ℕ
  | [] => view
  | v :: rest => writeInterleaved (setInt16 view off v) (off + 2) rest

/-- The exact DataView write sequence both WAV writers perform for the
44-byte header; dataBytes is the byte size of the data chunk. -/
def wavHeaderWrites (view : List ℕ)
    (numberOfChannels sampleRate dataBytes : ℕ) : List ℕ :=
  let v1 := writeString view 0 "RIFF"
  let v2 := setUint32 v1 4 (36 + dataBytes)
  let v3 := writeString v2 8 "WAVE"
  let v4 := writeString v3 12 "fmt "
  let v5 := setUint32 v4 16 16
  let v6 := setUint16 v5 20 1
  let v7 := setUint16 v6 22 numberOfChannels
  let v8 := setUint32 v7 24 sampleRate
  let v9 := setUint32 v8 28 (sampleRate * numberOfChannels * 2)
  let v10 := setUint16 v9 32 (numberOfChannels * 2)
  let v11 := setUint16 v10 34 16
  let v12 := writeString v11 36 "data"
  setUint32 v12 40 dataBytes

/-- audioBufferToWav: allocate 44 + length·channels·2 bytes, write the
header, then the interleaved quantized samples from offset 44. -/
def audioBufferToWav (buffer : AudioBuffer) : Blob :=
  let arrayBuffer :=
    List.replicate (44 + buffer.length * buffer.channels.length * 2) (0 : ℕ)
  let view := wavHeaderWrites arrayBuffer buffer.channels.length
    buffer.sampleRate (buffer.length * buffer.channels.length * 2)
  ⟨writeInterleaved view 44 (interleavedSamples buffer), "audio/wav"⟩

/-- Uint8Array.prototype.set: overwrite src.length bytes at the offset. -/
def uint8ArraySet (buf : List ℕ) (off : ℕ) (src : List ℕ) : List ℕ :=
  buf.take off ++ src ++ buf.drop (off + src.length)

/-- pcmToWav: same header, then the raw PCM bytes copied at offset 44. -/
def pcmToWav (pcmData : List ℕ) (sampleRate numChannels : ℕ) : Blob :=
  let buffer := List.replicate (44 + pcmData.length) (0 : ℕ)
  let view := wavHeaderWrites buffer numChannels sampleRate pcmData.length
  ⟨uint8ArraySet view 44 pcmData, "audio/wav"⟩

/-- The 44-byte header layout as the specification states it. -/
def wavHeaderSpec (numberOfChannels sampleRate dataBytes : ℕ) : List ℕ :=
  asciiBytes "RIFF" ++ u32le (36 + dataBytes) ++ asciiBytes "WAVE" ++
  asciiBytes "fmt " ++ u32le 16 ++ u16le 1 ++ u16le numberOfChannels ++
  u32le sampleRate ++ u32le (sampleRate * numberOfChannels * 2) ++
  u16le (numberOfChannels * 2) ++ u16le 16 ++ asciiBytes "data" ++
  u32le dataBytes

theorem wavHeaderSpec_length (ch rate D : ℕ) :
    (wavHeaderSpec ch rate D).length = 44 := rfl

set_option maxHeartbeats 2000000 in
theorem wavHeaderWrites_replicate (b : List ℕ) (ch rate D : ℕ) :
    wavHeaderWrites (List.replicate 44 0 ++ b) ch rate D
      = wavHeaderSpec ch rate D ++ b := by
  show wavHeaderWrites
    (0 :: 0 :: 0 :: 0 :: 0 :: 0 :: 0 :: 0 :: 0 :: 0 :: 0 :: 0 :: 0 :: 0 :: 0 :: 0 :: 0 :: 0 :: 0 :: 0 :: 0 :: 0 :: 0 :: 0 :: 0 :: 0 :: 0 :: 0 :: 0 :: 0 :: 0 :: 0 :: 0 :: 0 :: 0 :: 0 :: 0 :: 0 :: 0 :: 0 :: 0 :: 0 :: 0 :: 0 :: b) ch rate D = _
  simp [wavHeaderWrites, writeString, writeChars, setUint8, setUint16,
    setUint32, wavHeaderSpec, asciiBytes, u16le, u32le]

theorem writeInterleaved_append (samples : List ℤ) :
    ∀ (pre : List ℕ) (k off : ℕ), k = 2 * samples.length → off = pre.length →
    writeInterleaved (pre ++ List.replicate k 0) off samples
      = pre ++ samples.flatMap i16le := by
  induction samples with
  | nil =>
    intro pre k off hk hoff
    subst hk
    simp [writeInterleaved]
  | cons v rest ih =>
    intro pre k off hk hoff
    subst hk
    subst hoff
    have hrep : List.replicate (2 * (v :: rest).length) (0 : ℕ)
        = 0 :: 0 :: List.replicate (2 * rest.length) 0 := by
      rw [List.length_cons,
        show 2 * (rest.length + 1) = 2 * rest.length + 1 + 1 by ring,
        List.replicate_succ, List.replicate_succ]
    rw [hrep, writeInterleaved]
    have hset : setInt16
        (pre ++ 0 :: 0 :: List.replicate (2 * rest.length) 0) pre.length v
        = (pre ++ [(v % 65536).toNat % 256, (v % 65536).toNat / 256])
            ++ List.replicate (2 * rest.length) 0 := by
      rw [setInt16, List.set_append_right _ _ (Nat.le_refl _), Nat.sub_self,
        List.set_cons_zero,
        List.set_append_right _ _ (Nat.le_add_right _ _),
        Nat.add_sub_cancel_left, List.set_cons_succ, List.set_cons_zero,
        List.append_assoc]
      rfl
    rw [hset, ih _ _ _ rfl (by simp)]
    simp [i16le, List.append_assoc]

theorem interleavedSamples_length (buffer : AudioBuffer) :
    (interleavedSamples buffer).length
      = buffer.length * buffer.channels.length := by
  rw [interleavedSamples]
  induction buffer.length with
  | zero => simp
  | succ n ih =>
    rw [List.range_succ, List.flatMap_append, List.length_append, ih]
    simp [Nat.succ_mul]

/-- C9: the fallback WAV writers are total and emit exactly the specified
layout — the 44-byte header (RIFF, ChunkSize = 36 + dataBytes, WAVE, fmt ,
16, PCM tag 1, channel count, sample rate, byte rate = rate·channels·2,
block align = channels·2, 16 bits per sample, data, dataBytes, each in its
specified little-endian width) followed by the interleaved 16-bit
little-endian PCM samples (audioBufferToWav) or the raw PCM bytes
(pcmToWav), with MIME type audio/wav and total size 44 + dataBytes. -/
theorem wav_fallback_layout (buffer : AudioBuffer) (pcmData : List ℕ)
    (sampleRate numChannels : ℕ) :
    (audioBufferToWav buffer).bytes
        = wavHeaderSpec buffer.channels.length buffer.sampleRate
            (buffer.length * buffer.channels.length * 2) ++
          (interleavedSamples buffer).flatMap i16le ∧
    (audioBufferToWav buffer).type = "audio/wav" ∧
    (audioBufferToWav buffer).bytes.length
        = 44 + buffer.length * buffer.channels.length * 2 ∧
    (pcmToWav pcmData sampleRate numChannels).bytes
        = wavHeaderSpec numChannels sampleRate pcmData.length ++ pcmData ∧
    (pcmToWav pcmData sampleRate numChannels).type = "audio/wav" := by
  have hbytes : (audioBufferToWav buffer).bytes
      = wavHeaderSpec buffer.channels.length buffer.sampleRate
          (buffer.length * buffer.channels.length * 2) ++
        (interleavedSamples buffer).flatMap i16le := by
    show writeInterleaved
        (wavHeaderWrites
          (List.replicate (44 + buffer.length * buffer.channels.length * 2) 0)
          buffer.channels.length buffer.sampleRate
          (buffer.length * buffer.channels.length * 2)) 44
        (interleavedSamples buffer) = _
    rw [List.replicate_add, wavHeaderWrites_replicate]
    exact writeInterleaved_append (interleavedSamples buffer) _ _ _
      (by rw [interleavedSamples_length]; ring)
      (wavHeaderSpec_length _ _ _).symm
  refine ⟨hbytes, rfl, ?_, ?_, rfl⟩
  · rw [hbytes, List.length_append, wavHeaderSpec_length]
    have : ((interleavedSamples buffer).flatMap i16le).length
        = 2 * (interleavedSamples buffer).length := by
      induction interleavedSamples buffer with
      | nil => rfl
      | cons v rest ih =>
        rw [List.flatMap_cons, List.length_append, ih, List.length_cons]
        simp [i16le]
        ring
    rw [this, interleavedSamples_length]
    ring
  · show uint8ArraySet
        (wavHeaderWrites (List.replicate (44 + pcmData.length) 0)
          numChannels sampleRate pcmData.length) 44 pcmData = _
    rw [List.replicate_add, wavHeaderWrites_replicate, uint8ArraySet,
      List.take_left' (wavHeaderSpec_length _ _ _),
      show 44 + pcmData.length
        = ((wavHeaderSpec numChannels sampleRate pcmData.length).length
            + pcmData.length) by rw [wavHeaderSpec_length]]
    rw [List.drop_eq_nil_of_le (by simp [wavHeaderSpec_length]),
      List.append_nil]

/-! ### MP3 encoding with WAV fallback (audioBufferToMp3, Timeline.tsx
lines 604-717)

The lamejs encoder is an external collaborator loaded at runtime; the
whole primary path up to and including the chunk loop is abstracted as an
outcome: any step may throw (`thrown` — this covers a failed CDN load, a
missing global encoder object, and encodeBuffer/flush errors), or the
loop produces the list of mp3 data chunks (`encoded`).  The code then
throws on an empty chunk result and otherwise returns the concatenated
chunks as an audio/mpeg blob; every throw lands in the catch branch,
which answers with audioBufferToWav instead of propagating. -/

inductive Mp3Outcome where
  | thrown
  | encoded (mp3Data : List (List ℕ))
  deriving DecidableEq, Repr

/-- The total `mp3Data.reduce((sum, arr) => sum + arr.length, 0)`. -/
def mp3TotalLength (mp3Data : List (List ℕ)) : ℕ :=
  (mp3Data.map List.length).sum

def audioBufferToMp3 (outcome : Mp3Outcome) (buffer : AudioBuffer) : Blob :=
  match outcome with
  | Mp3Outcome.thrown => audioBufferToWav buffer
  | Mp3Outcome.encoded mp3Data =>
      if mp3Data.length = 0 ∨ mp3TotalLength mp3Data = 0 then
        audioBufferToWav buffer
      else
        ⟨mp3Data.flatten, "audio/mpeg"⟩

/-- JS `haystack.startsWith(needle)` on char lists. -/
def leadsWith : List Char → List Char → Bool
  | [], _ => true
  | _ :: _, [] => false
  | a :: as, b :: bs => a == b && leadsWith as bs

/-- Substring occurrence test on char lists. -/
def containsSeq (needle : List Char) : List Char → Bool
  | [] => needle.isEmpty
  | c :: cs => leadsWith needle (c :: cs) || containsSeq needle cs

/-- JS `s.includes(sub)`. -/
def strIncludes (s sub : String) : Bool := containsSeq sub.data s.data

/-- The check `audioBlob.type.includes('mpeg') || audioBlob.type.includes('mp3')`
(exportAudio line 581) — the format flag derived from the blob. -/
def isMp3Blob (b : Blob) : Bool :=
  strIncludes b.type "mpeg" || strIncludes b.type "mp3"

theorem length_writeChars (cs : List Char) :
    ∀ (b : List ℕ) (off : ℕ), (writeChars b off cs).length = b.length := by
  induction cs with
  | nil => intro b off; rfl
  | cons ch rest ih =>
    intro b off
    rw [writeChars, ih]
    simp [setUint8]

theorem length_writeInterleaved (samples : List ℤ) :
    ∀ (view : List ℕ) (off : ℕ),
      (writeInterleaved view off samples).length = view.length := by
  induction samples with
  | nil => intro view off; rfl
  | cons v rest ih =>
    intro view off
    rw [writeInterleaved, ih]
    simp [setInt16]

theorem length_wavHeaderWrites (view : List ℕ) (ch rate D : ℕ) :
    (wavHeaderWrites view ch rate D).length = view.length := by
  simp [wavHeaderWrites, writeString, length_writeChars, setUint16, setUint32]

theorem audioBufferToWav_length (buffer : AudioBuffer) :
    (audioBufferToWav buffer).bytes.length
      = 44 + buffer.length * buffer.channels.length * 2 := by
  show (writeInterleaved _ 44 _).length = _
  rw [length_writeInterleaved, length_wavHeaderWrites, List.length_replicate]

theorem audioBufferToWav_bytes_ne_nil (buffer : AudioBuffer) :
    (audioBufferToWav buffer).bytes ≠ [] := by
  intro h
  have := audioBufferToWav_length buffer
  rw [h] at this
  simp at this
  omega

/-- C3: the encoder is total and definite: for every buffer and every
primary-path outcome it returns a blob with nonempty bytes whose MIME type
is audio/mpeg or audio/wav, and the derived format flag is true exactly on
the mpeg type; a thrown primary path or a zero-byte encoder result is not
propagated — the result is exactly the WAV fallback — and a successful
primary path yields the concatenated mp3 chunks as audio/mpeg. -/
theorem audioBufferToMp3_total_fallback (outcome : Mp3Outcome)
    (buffer : AudioBuffer) :
    (audioBufferToMp3 outcome buffer).bytes ≠ [] ∧
    ((audioBufferToMp3 outcome buffer).type = "audio/mpeg" ∨
      (audioBufferToMp3 outcome buffer).type = "audio/wav") ∧
    (isMp3Blob (audioBufferToMp3 outcome buffer) = true ↔
      (audioBufferToMp3 outcome buffer).type = "audio/mpeg") ∧
    (audioBufferToMp3 Mp3Outcome.thrown buffer = audioBufferToWav buffer) ∧
    (∀ mp3Data : List (List ℕ), mp3TotalLength mp3Data = 0 →
      audioBufferToMp3 (Mp3Outcome.encoded mp3Data) buffer
        = audioBufferToWav buffer) ∧
    (∀ mp3Data : List (List ℕ),
      mp3Data.length ≠ 0 → mp3TotalLength mp3Data ≠ 0 →
      audioBufferToMp3 (Mp3Outcome.encoded mp3Data) buffer
        = ⟨mp3Data.flatten, "audio/mpeg"⟩) := by
  have hwavtype : (audioBufferToWav buffer).type = "audio/wav" := rfl
  have hflag : ∀ b : Blob, b.type = "audio/mpeg" ∨ b.type = "audio/wav" →
      (isMp3Blob b = true ↔ b.type = "audio/mpeg") := by
    intro b hb
    rcases hb with hb | hb <;>
      simp [isMp3Blob, strIncludes, hb, containsSeq, leadsWith]
  have hcase : audioBufferToMp3 outcome buffer = audioBufferToWav buffer ∨
      ∃ mp3Data : List (List ℕ), mp3TotalLength mp3Data ≠ 0 ∧
        audioBufferToMp3 outcome buffer = ⟨mp3Data.flatten, "audio/mpeg"⟩ := by
    cases outcome with
    | thrown => left; rfl
    | encoded mp3Data =>
      by_cases hz : mp3Data.length = 0 ∨ mp3TotalLength mp3Data = 0
      · left
        rw [audioBufferToMp3, if_pos hz]
      · right
        push_neg at hz
        exact ⟨mp3Data, hz.2, by rw [audioBufferToMp3, if_neg (by push_neg; exact hz)]⟩
  have hne : (audioBufferToMp3 outcome buffer).bytes ≠ [] := by
    rcases hcase with h | ⟨mp3Data, hz, h⟩
    · rw [h]; exact audioBufferToWav_bytes_ne_nil buffer
    · rw [h]
      intro hnil
      have hflat : mp3Data.flatten = ([] : List ℕ) := hnil
      have hlen0 : mp3TotalLength mp3Data = 0 := by
        rw [mp3TotalLength, ← List.length_flatten, hflat]
        rfl
      exact hz hlen0
  have htype : (audioBufferToMp3 outcome buffer).type = "audio/mpeg" ∨
      (audioBufferToMp3 outcome buffer).type = "audio/wav" := by
    rcases hcase with h | ⟨mp3Data, _, h⟩
    · rw [h]; right; rfl
    · rw [h]; left; rfl
  refine ⟨hne, htype, hflag _ htype, rfl, ?_, ?_⟩
  · intro mp3Data hz
    rw [audioBufferToMp3, if_pos (Or.inr hz)]
  · intro mp3Data hlen hz
    rw [audioBufferToMp3, if_neg (by push_neg; exact ⟨hlen, hz⟩)]

/-- A small concrete buffer for the encoder witnesses. -/
def bufC3 : AudioBuffer := ⟨8000, 1, [[0]]⟩

/-- C3 witness: the encoder theorem applied to a thrown primary path on a
concrete one-sample buffer, and to a successful one-chunk encode. -/
theorem audioBufferToMp3_witness :
    (audioBufferToMp3 Mp3Outcome.thrown bufC3).bytes ≠ [] ∧
    ([[7]] : List (List ℕ)).length ≠ 0 ∧ mp3TotalLength [[7]] ≠ 0 ∧
    audioBufferToMp3 (Mp3Outcome.encoded [[7]]) bufC3
      = ⟨[7], "audio/mpeg"⟩ :=
  ⟨(audioBufferToMp3_total_fallback Mp3Outcome.thrown bufC3).1,
    by decide, by decide,
    by
      rw [(audioBufferToMp3_total_fallback (Mp3Outcome.encoded [[7]])
        bufC3).2.2.2.2.2 [[7]] (by decide) (by decide)]
      rfl⟩

/-! ### exportAudio control flow (Timeline.tsx lines 545-601) -/

/-- What a call to exportAudio does: nothing (the `clips.length === 0`
early return), an exported blob with its format flag, or the catch branch
showing an alert. -/
inductive ExportResult where
  | noop
  | exported (blob : Blob) (isMp3 : Bool)
  | failed (message : String)
  deriving DecidableEq, Repr

def exportAudio (outcome : Mp3Outcome) (buffers : Nat → List ℚ)
    (sampleRate : ℕ) (clips : List TimelineClip) : ExportResult :=
  if clips.length = 0 then ExportResult.noop
  else
    let channelData := exportMixdown buffers sampleRate clips
    let audioBlob := audioBufferToMp3 outcome
      ⟨sampleRate, channelData.length, [channelData]⟩
    ExportResult.exported audioBlob (isMp3Blob audioBlob)

/-- C7 counterexample: exporting an empty timeline returns silently — the
result is the no-op, which is not a surfaced EmptyTimelineError (nor any
failure). -/
theorem export_empty_noop_counterexample :
    exportAudio Mp3Outcome.thrown (fun _ => []) 2 [] = ExportResult.noop ∧
    ExportResult.noop ≠ ExportResult.failed "EmptyTimelineError" := by
  refine ⟨rfl, ?_⟩
  intro h
  cases h

/-- C7 (amended): export on a timeline with no clips is a silent no-op that
surfaces no error and leaves all state unchanged (the function returns
before doing anything); with at least one clip it returns an exported blob. -/
theorem exportAudio_empty_noop (outcome : Mp3Outcome)
    (buffers : Nat → List ℚ) (sampleRate : ℕ) :
    exportAudio outcome buffers sampleRate [] = ExportResult.noop ∧
    ∀ clips : List TimelineClip, clips ≠ [] →
      ∃ blob flag, exportAudio outcome buffers sampleRate clips
        = ExportResult.exported blob flag := by
  refine ⟨rfl, ?_⟩
  intro clips hne
  rw [exportAudio, if_neg (by simpa using hne)]
  exact ⟨_, _, rfl⟩

/-- C7 witness: the amended no-op theorem at a concrete outcome and buffer
cache, with the nonempty case exercised on a one-clip timeline. -/
theorem exportAudio_empty_noop_witness :
    ([clipW] : List TimelineClip) ≠ [] ∧
    exportAudio Mp3Outcome.thrown bufW 1 [] = ExportResult.noop :=
  ⟨by simp, (exportAudio_empty_noop Mp3Outcome.thrown bufW 1).1⟩

/-! ### Playback scheduling (playTimelineFromTime, Timeline.tsx lines 62-137)

The AudioContext clock is the parameter `now` (audioContextTime in the
code).  A scheduled source records the arguments of
`source.start(playTime, bufferOffset)` with the clip it plays.  The call
stops every source node of the previous session and replaces the node
list with the new schedule; `playStartTimeRef` is set to
`now − clampedStartOffset`. -/

structure ScheduledSource where
  clipId : Nat
  playTime : ℚ
  bufferOffset : ℚ
  deriving DecidableEq, Repr

/-- The per-clip decision of the scheduling loop: skip clips that end at or
before the clamped offset; start later clips at
now + (start − clamped) from buffer offset 0; start in-progress clips at
`now` from buffer offset clamped − start. -/
def scheduleClip (now clampedStartOffset : ℚ) (clip : TimelineClip) :
    Option ScheduledSource :=
  if clip.startTime + clip.audio.dur ≤ clampedStartOffset then none
  else if clampedStartOffset ≤ clip.startTime then
    some ⟨clip.id, now + (clip.startTime - clampedStartOffset), 0⟩
  else
    some ⟨clip.id, now, clampedStartOffset - clip.startTime⟩

structure PlaybackResult where
  stoppedSources : List Nat
  playStartTime : ℚ
  clampedStartOffset : ℚ
  sources : List ScheduledSource
  deriving DecidableEq, Repr

/-- playTimelineFromTime: `none` when the clip list is empty (the early
return); otherwise all previous sources are stopped, the requested offset
is clamped to [0, totalDuration], and every clip of the sorted list is
scheduled. -/
def playTimelineFromTime (prevSources : List Nat) (now : ℚ)
    (clips : List TimelineClip) (startOffset : ℚ) : Option PlaybackResult :=
  if clips.length = 0 then none
  else
    let sortedClips := sortClips clips
    let totalD := listMax (sortedClips.map fun c => c.startTime + c.audio.dur)
    let clampedStartOffset := max 0 (min startOffset totalD)
    some ⟨prevSources, now - clampedStartOffset, clampedStartOffset,
      sortedClips.filterMap (scheduleClip now clampedStartOffset)⟩

theorem scheduleClip_clipId (now cl : ℚ) (c : TimelineClip)
    (e : ScheduledSource) (h : scheduleClip now cl c = some e) :
    e.clipId = c.id := by
  rw [scheduleClip] at h
  split at h
  · cases h
  · split at h <;> (cases h; rfl)

/-- C1: for every nonempty timeline (with distinct clip ids) and every
requested offset, play stops every source of the previous session, clamps
the offset to [0, totalDuration], and schedules exactly the non-ended
clips: a clip with start + duration ≤ clamped is not scheduled at all; a
clip with clamped ≤ start is scheduled at shared-clock instant
now + (start − clamped) from buffer offset 0; a clip already in progress
is scheduled at `now` from buffer offset clamped − start; and every
scheduled source arises from one of the clips this way. -/
theorem playTimelineFromTime_spec (prevSources : List Nat) (now : ℚ)
    (clips : List TimelineClip) (startOffset : ℚ) (hne : clips ≠ [])
    (hids : (clips.map TimelineClip.id).Nodup) :
    ∃ r : PlaybackResult,
      playTimelineFromTime prevSources now clips startOffset = some r ∧
      r.stoppedSources = prevSources ∧
      r.playStartTime = now - r.clampedStartOffset ∧
      r.clampedStartOffset = max 0 (min startOffset (totalDuration clips)) ∧
      (∀ c ∈ clips, c.startTime + c.audio.dur ≤ r.clampedStartOffset →
        ∀ e ∈ r.sources, e.clipId ≠ c.id) ∧
      (∀ c ∈ clips, ¬ c.startTime + c.audio.dur ≤ r.clampedStartOffset →
        r.clampedStartOffset ≤ c.startTime →
        (⟨c.id, now + (c.startTime - r.clampedStartOffset), 0⟩ :
          ScheduledSource) ∈ r.sources) ∧
      (∀ c ∈ clips, ¬ c.startTime + c.audio.dur ≤ r.clampedStartOffset →
        ¬ r.clampedStartOffset ≤ c.startTime →
        (⟨c.id, now, r.clampedStartOffset - c.startTime⟩ :
          ScheduledSource) ∈ r.sources) ∧
      (∀ e ∈ r.sources, ∃ c ∈ clips,
        scheduleClip now r.clampedStartOffset c = some e) := by
  have htd : totalDuration (sortClips clips) = totalDuration clips :=
    totalDuration_sortClips clips hne
  have hmem : ∀ c : TimelineClip, c ∈ sortClips clips ↔ c ∈ clips := by
    intro c
    exact List.mem_mergeSort
  refine ⟨_, by rw [playTimelineFromTime, if_neg (by simpa using hne)], rfl,
    rfl, ?_, ?_, ?_, ?_, ?_⟩
  · show max 0 (min startOffset (listMax ((sortClips clips).map
        fun c => c.startTime + c.audio.dur))) = _
    rw [show listMax ((sortClips clips).map fun c => c.startTime + c.audio.dur)
        = totalDuration (sortClips clips) from rfl, htd]
  · intro c hc hend e he hid
    rcases List.mem_filterMap.mp he with ⟨c', hc', hsched⟩
    have hcc : c' = c :=
      List.inj_on_of_nodup_map hids ((hmem c').mp hc') hc
        (by rw [← scheduleClip_clipId _ _ _ _ hsched]; exact hid)
    rw [hcc, scheduleClip, if_pos hend] at hsched
    cases hsched
  · intro c hc hend hle
    exact List.mem_filterMap.mpr ⟨c, (hmem c).mpr hc,
      by rw [scheduleClip, if_neg hend, if_pos hle]⟩
  · intro c hc hend hlt
    exact List.mem_filterMap.mpr ⟨c, (hmem c).mpr hc,
      by rw [scheduleClip, if_neg hend, if_neg hlt]⟩
  · intro e he
    rcases List.mem_filterMap.mp he with ⟨c', hc', hsched⟩
    exact ⟨c', (hmem c').mp hc', hsched⟩

/-- Clip A on [0, 3). -/
def clipA : TimelineClip := ⟨0, 20, 0, ⟨20, some 3⟩⟩

/-- Clip B on [3, 5). -/
def clipB : TimelineClip := ⟨1, 21, 3, ⟨21, some 2⟩⟩

/-- C1 witness: the scenario of the claim — on the timeline [A on [0,3),
B on [3,5)], play(4) stops the previous session's source, clamps to 4,
schedules B immediately (playTime = now = 100) at buffer offset 1, and does
not schedule A. -/
theorem playTimelineFromTime_spec_witness :
    ([clipA, clipB] : List TimelineClip) ≠ [] ∧
    ([clipA, clipB].map TimelineClip.id).Nodup ∧
    ∃ r : PlaybackResult,
      playTimelineFromTime [5] 100 [clipA, clipB] 4 = some r ∧
      r.stoppedSources = [5] ∧
      r.clampedStartOffset = 4 ∧
      (⟨1, 100, 1⟩ : ScheduledSource) ∈ r.sources ∧
      ∀ e ∈ r.sources, e.clipId ≠ 0 := by
  refine ⟨by simp, by decide, ?_⟩
  obtain ⟨r, h1, h2, _, h4, h5, _, h7, _⟩ :=
    playTimelineFromTime_spec [5] 100 [clipA, clipB] 4 (by simp) (by decide)
  have htd : totalDuration [clipA, clipB] = 5 := by
    simp [totalDuration, listMax, clipA, clipB, GeneratedAudio.dur]
    norm_num
  have hcl : r.clampedStartOffset = 4 := by
    rw [h4, htd]
    norm_num
  refine ⟨r, h1, h2, hcl, ?_, ?_⟩
  · have hmem := h7 clipB (by simp)
      (by rw [hcl]; norm_num [clipB, GeneratedAudio.dur])
      (by rw [hcl]; norm_num [clipB])
    have : r.clampedStartOffset - clipB.startTime = 1 := by
      rw [hcl]; norm_num [clipB]
    rw [this] at hmem
    exact hmem
  · intro e he
    exact h5 clipA (by simp)
      (by rw [hcl]; norm_num [clipA, GeneratedAudio.dur]) e he

/-! ### Uniform spacing (applyIntervalSpacing, Timeline.tsx lines 499-540)

The code sorts the selected clips by current start offset, keeps the first
one's start, and walks the rest: newStartTime = currentEndTime + gap is
stored clamped at 0 while currentEndTime advances by the unclamped
newStartTime plus the clip's duration; finally every clip found in the
newPositions map gets its new start and the list is re-sorted. -/

/-- The loop from the second selected clip on (lines 518-523). -/
def spacingGo (gap : ℚ) : ℚ → List TimelineClip → List (Nat × ℚ)
  | _, [] => []
  | currentEndTime, clip :: rest =>
      (clip.id, max 0 (currentEndTime + gap)) ::
        spacingGo gap (currentEndTime + gap + clip.audio.dur) rest

/-- The full newPositions map: the first selected clip keeps its start. -/
def spacingPositions (first : TimelineClip) (rest : List TimelineClip)
    (gap : ℚ) : List (Nat × ℚ) :=
  (first.id, first.startTime) ::
    spacingGo gap (first.startTime + first.audio.dur) rest

def applyIntervalSpacing (clips : List TimelineClip)
    (selectedClips : List Nat) (intervalSpacing : ℚ) : List TimelineClip :=
  if selectedClips = [] then clips
  else
    match sortClips (clips.filter fun c => c.id ∈ selectedClips) with
    | [] => clips
    | first :: rest =>
        let newPositions := spacingPositions first rest intervalSpacing
        sortClips (clips.map fun clip =>
          match newPositions.lookup clip.id with
          | some t => ⟨clip.id, clip.audioId, t, clip.audio⟩
          | none => clip)

/-- Each selected clip paired with its new start offset, in sorted order. -/
def spacedPairs (first : TimelineClip) (rest : List TimelineClip) (g : ℚ) :
    List (TimelineClip × ℚ) :=
  (first :: rest).zip ((spacingPositions first rest g).map Prod.snd)

theorem spacingGo_keys (g : ℚ) :
    ∀ (rest : List TimelineClip) (cet : ℚ),
      (spacingGo g cet rest).map Prod.fst = rest.map TimelineClip.id := by
  intro rest
  induction rest with
  | nil => intro cet; rfl
  | cons c cs ih => intro cet; rw [spacingGo, List.map_cons, ih, List.map_cons]

theorem spacingPositions_keys (first : TimelineClip)
    (rest : List TimelineClip) (g : ℚ) :
    (spacingPositions first rest g).map Prod.fst
      = (first :: rest).map TimelineClip.id := by
  rw [spacingPositions, List.map_cons, spacingGo_keys, List.map_cons]

theorem lookup_eq_none_of_not_mem_keys :
    ∀ {l : List (Nat × ℚ)} {k : Nat},
      k ∉ l.map Prod.fst → l.lookup k = none := by
  intro l
  induction l with
  | nil => intro k h; rfl
  | cons p ps ih =>
    intro k h
    obtain ⟨k', v'⟩ := p
    simp only [List.map_cons, List.mem_cons, not_or] at h
    rw [List.lookup_cons, beq_eq_false_iff_ne.mpr h.1]
    exact ih h.2

theorem lookup_eq_some_of_mem_nodup :
    ∀ {l : List (Nat × ℚ)} {k : Nat} {v : ℚ},
      (l.map Prod.fst).Nodup → (k, v) ∈ l → l.lookup k = some v := by
  intro l
  induction l with
  | nil => intro k v _ h; cases h
  | cons p ps ih =>
    intro k v hnd hm
    obtain ⟨k', v'⟩ := p
    rcases List.mem_cons.mp hm with h | h
    · injection h with h1 h2
      subst h1
      subst h2
      rw [List.lookup_cons, show (k == k) = true from beq_self_eq_true k]
    · have hk : k ∈ ps.map Prod.fst :=
        List.mem_map.mpr ⟨(k, v), h, rfl⟩
      have hnd2 : (Prod.fst (k', v') :: ps.map Prod.fst).Nodup := by
        rw [List.map_cons] at hnd
        exact hnd
      have hnd' := List.nodup_cons.mp hnd2
      have hne : k ≠ k' := fun he => hnd'.1 (he ▸ hk)
      rw [List.lookup_cons, beq_eq_false_iff_ne.mpr hne]
      exact ih hnd'.2 h

theorem pair_mem_positions :
    ∀ (l : List TimelineClip) (ps : List (Nat × ℚ)),
      ps.map Prod.fst = l.map TimelineClip.id →
      ∀ (c : TimelineClip) (s : ℚ),
        (c, s) ∈ l.zip (ps.map Prod.snd) → (c.id, s) ∈ ps := by
  intro l
  induction l with
  | nil => intro ps h c s hm; simp at hm
  | cons a as ih =>
    intro ps h c s hm
    cases ps with
    | nil => simp at h
    | cons p ps' =>
      rw [List.map_cons, List.map_cons, List.cons.injEq] at h
      rw [List.map_cons, List.zip_cons_cons, List.mem_cons] at hm
      rcases hm with hm | hm
      · rw [Prod.mk.injEq] at hm
        have he : (c.id, s) = p := by
          rw [hm.1, hm.2, ← h.1]
        rw [he]
        exact List.mem_cons_self _ _
      · exact List.mem_cons_of_mem _ (ih ps' h.2 c s hm)

theorem spacingGo_chain (g : ℚ) (hg : 0 ≤ g) :
    ∀ (rest : List TimelineClip) (prev : TimelineClip) (prevStart : ℚ),
      0 ≤ prevStart → 0 ≤ prev.audio.dur →
      (∀ c ∈ rest, 0 ≤ c.audio.dur) →
      List.Chain' (fun p q : TimelineClip × ℚ => q.2 = p.2 + p.1.audio.dur + g)
        ((prev, prevStart) ::
          rest.zip ((spacingGo g (prevStart + prev.audio.dur) rest).map
            Prod.snd)) := by
  intro rest
  induction rest with
  | nil => intro prev prevStart h1 h2 h3; simp
  | cons c cs ih =>
    intro prev prevStart h1 h2 h3
    rw [spacingGo, List.map_cons, List.zip_cons_cons]
    have hmax : max 0 (prevStart + prev.audio.dur + g)
        = prevStart + prev.audio.dur + g := by
      rw [max_eq_right]
      positivity
    rw [hmax, List.chain'_cons]
    constructor
    · rfl
    · have := ih c (prevStart + prev.audio.dur + g) (by positivity)
        (h3 c (List.mem_cons_self _ _))
        (fun c' hc' => h3 c' (List.mem_cons_of_mem _ hc'))
      simpa using this

/-- C8: with a nonnegative gap and a data-model-conforming timeline
(nonnegative start offsets and durations, distinct clip ids) and a
nonempty selection sorting to first :: rest, redistribute keeps the
earliest selected clip's start offset, gives each subsequent selected
clip (in current start-offset order) the start
prev.newStart + prev.duration + gap, stores those positions in the
resulting clip list, and leaves every clip outside the selection
completely unchanged. -/
theorem applyIntervalSpacing_spec (clips : List TimelineClip)
    (selectedClips : List Nat) (g : ℚ) (hg : 0 ≤ g)
    (hstart : ∀ c ∈ clips, 0 ≤ c.startTime)
    (hdur : ∀ c ∈ clips, 0 ≤ c.audio.dur)
    (hids : (clips.map TimelineClip.id).Nodup)
    (hselne : selectedClips ≠ [])
    (first : TimelineClip) (rest : List TimelineClip)
    (hsel : sortClips (clips.filter fun c => c.id ∈ selectedClips)
      = first :: rest) :
    (∀ c ∈ first :: rest, first.startTime ≤ c.startTime) ∧
    (spacedPairs first rest g).head? = some (first, first.startTime) ∧
    List.Chain' (fun p q : TimelineClip × ℚ => q.2 = p.2 + p.1.audio.dur + g)
      (spacedPairs first rest g) ∧
    (∀ p ∈ spacedPairs first rest g,
      (⟨p.1.id, p.1.audioId, p.2, p.1.audio⟩ : TimelineClip)
        ∈ applyIntervalSpacing clips selectedClips g) ∧
    (∀ c ∈ clips, c.id ∉ selectedClips →
      c ∈ applyIntervalSpacing clips selectedClips g) := by
  have hselmem : ∀ c ∈ first :: rest, c ∈ clips ∧ c.id ∈ selectedClips := by
    intro c hc
    have : c ∈ clips.filter fun c => c.id ∈ selectedClips := by
      rw [← hsel] at hc
      exact List.mem_mergeSort.mp hc
    exact ⟨List.mem_of_mem_filter this, by simpa using List.of_mem_filter this⟩
  have hkeysel : ∀ k ∈ (spacingPositions first rest g).map Prod.fst,
      k ∈ selectedClips := by
    intro k hk
    rw [spacingPositions_keys] at hk
    rcases List.mem_map.mp hk with ⟨c, hc, rfl⟩
    exact (hselmem c hc).2
  have hkeynodup : ((spacingPositions first rest g).map Prod.fst).Nodup := by
    rw [spacingPositions_keys]
    have hsub : (clips.filter fun c => c.id ∈ selectedClips).map
        TimelineClip.id |>.Sublist (clips.map TimelineClip.id) :=
      (List.filter_sublist clips).map _
    have hnd : ((clips.filter fun c => c.id ∈ selectedClips).map
        TimelineClip.id).Nodup := hids.sublist hsub
    have hperm : ((first :: rest).map TimelineClip.id).Perm
        ((clips.filter fun c => c.id ∈ selectedClips).map TimelineClip.id) := by
      rw [← hsel]
      exact (List.mergeSort_perm _ _).map _
    exact hperm.nodup_iff.mpr hnd
  have hresult : applyIntervalSpacing clips selectedClips g
      = sortClips (clips.map fun clip =>
          match (spacingPositions first rest g).lookup clip.id with
          | some t => ⟨clip.id, clip.audioId, t, clip.audio⟩
          | none => clip) := by
    rw [applyIntervalSpacing, if_neg hselne, hsel]
  refine ⟨?_, rfl, ?_, ?_, ?_⟩
  · have hsorted : (first :: rest).Pairwise (fun a b => clipLe a b) := by
      rw [← hsel, sortClips]
      exact List.sorted_mergeSort
        (by intro a b c; simp only [clipLe, decide_eq_true_eq]; exact le_trans)
        (by intro a b; simp only [clipLe, Bool.or_eq_true, decide_eq_true_eq]
            exact le_total _ _) _
    intro c hc
    rcases List.mem_cons.mp hc with h | h
    · rw [h]
    · have := List.rel_of_pairwise_cons hsorted h
      simpa [clipLe] using this
  · rw [spacedPairs, spacingPositions, List.map_cons, List.zip_cons_cons]
    have hfirst := hselmem first (List.mem_cons_self _ _)
    exact spacingGo_chain g hg rest first first.startTime
      (hstart first hfirst.1) (hdur first hfirst.1)
      (fun c hc => hdur c (hselmem c (List.mem_cons_of_mem _ hc)).1)
  · intro p hp
    obtain ⟨c, s⟩ := p
    have hzip : (c, s) ∈ (first :: rest).zip
        ((spacingPositions first rest g).map Prod.snd) := hp
    have hpairmem : (c.id, s) ∈ spacingPositions first rest g :=
      pair_mem_positions (first :: rest) (spacingPositions first rest g)
        (spacingPositions_keys first rest g) c s hzip
    have hcmem : c ∈ first :: rest := (List.of_mem_zip hzip).1
    have hlook : (spacingPositions first rest g).lookup c.id = some s :=
      lookup_eq_some_of_mem_nodup hkeynodup hpairmem
    rw [hresult]
    apply List.mem_mergeSort.mpr
    apply List.mem_map.mpr
    exact ⟨c, (hselmem c hcmem).1, by rw [hlook]⟩
  · intro c hc hcsel
    have hlook : (spacingPositions first rest g).lookup c.id = none :=
      lookup_eq_none_of_not_mem_keys (fun hk => hcsel (hkeysel c.id hk))
    rw [hresult]
    apply List.mem_mergeSort.mpr
    apply List.mem_map.mpr
    exact ⟨c, hc, by rw [hlook]⟩

/-- The first clip of the spacing witness: [0, 2). -/
def clipS0 : TimelineClip := ⟨0, 30, 0, ⟨30, some 2⟩⟩

/-- The second clip of the spacing witness: [10, 13). -/
def clipS1 : TimelineClip := ⟨1, 31, 10, ⟨31, some 3⟩⟩

/-- C8 witness: redistributing both clips with gap 1 keeps the first at 0 and
moves the second to 0 + 2 + 1 = 3 in the stored list. -/
theorem applyIntervalSpacing_spec_witness :
    (0 : ℚ) ≤ 1 ∧
    sortClips ([clipS0, clipS1].filter fun c => c.id ∈ [0, 1])
      = [clipS0, clipS1] ∧
    List.Chain' (fun p q : TimelineClip × ℚ => q.2 = p.2 + p.1.audio.dur + 1)
      (spacedPairs clipS0 [clipS1] 1) ∧
    (⟨1, 31, 3, ⟨31, some 3⟩⟩ : TimelineClip)
      ∈ applyIntervalSpacing [clipS0, clipS1] [0, 1] 1 := by
  have hfil : ([clipS0, clipS1].filter fun c => c.id ∈ [0, 1])
      = [clipS0, clipS1] := rfl
  have hsorted2 : List.Pairwise (fun a b => clipLe a b) [clipS0, clipS1] := by
    decide
  have hsel : sortClips ([clipS0, clipS1].filter fun c => c.id ∈ [0, 1])
      = [clipS0, clipS1] := by
    rw [hfil, sortClips, List.mergeSort_of_sorted hsorted2]
  obtain ⟨h1, h2, h3, h4, h5⟩ :=
    applyIntervalSpacing_spec [clipS0, clipS1] [0, 1] 1 (by norm_num)
      (by decide) (by decide) (by decide) (by simp) clipS0 [clipS1] hsel
  have hmax : max (0 : ℚ) (clipS0.startTime + clipS0.audio.dur + 1) = 3 := by
    norm_num [clipS0, GeneratedAudio.dur]
  have hpair : (clipS1, (3 : ℚ)) ∈ spacedPairs clipS0 [clipS1] 1 := by
    have hsteps : spacedPairs clipS0 [clipS1] 1
        = [(clipS0, clipS0.startTime),
           (clipS1, max 0 (clipS0.startTime + clipS0.audio.dur + 1))] := rfl
    rw [hsteps, hmax]
    exact List.mem_cons_of_mem _ (List.mem_cons_self _ _)
  refine ⟨by norm_num, hsel, h3, ?_⟩
  have := h4 (clipS1, 3) hpair
  simpa [clipS1] using this

/-! ### The remaining mutating operations (Timeline.tsx lines 308-356
drop, 377-390 drag, 485-491 delete) and the stored ordering invariant -/

/-- handleTimelineDrop: the drop position is clamped at 0, the new clip
appended, and the list sorted. -/
def handleTimelineDrop (clips : List TimelineClip) (newId : Nat)
    (audio : GeneratedAudio) (time : ℚ) : List TimelineClip :=
  sortClips (clips ++ [⟨newId, audio.id, max 0 time, audio⟩])

/-- handleClipDrag: the dragged clip's start offset becomes
max(0, pointer time − dragOffset) and the list is re-sorted. -/
def handleClipDrag (clips : List TimelineClip) (draggedId : Nat)
    (time : ℚ) : List TimelineClip :=
  sortClips (clips.map fun c =>
    if c.id = draggedId then ⟨c.id, c.audioId, max 0 time, c.audio⟩ else c)

/-- confirmDeleteSelectedClips: drop the selected clips (no-op when the
selection is empty). -/
def confirmDeleteSelectedClips (clips : List TimelineClip)
    (selectedClips : List Nat) : List TimelineClip :=
  if selectedClips ≠ [] then clips.filter fun c => ¬ c.id ∈ selectedClips
  else clips

/-- The stored invariant: non-decreasing start offsets. -/
def ClipsSorted (l : List TimelineClip) : Prop :=
  l.Pairwise fun a b => a.startTime ≤ b.startTime

theorem clipLe_trans :
    ∀ a b c : TimelineClip, clipLe a b → clipLe b c → clipLe a c := by
  intro a b c
  simp only [clipLe, decide_eq_true_eq]
  exact le_trans

theorem clipLe_total : ∀ a b : TimelineClip, clipLe a b || clipLe b a := by
  intro a b
  simp only [clipLe, Bool.or_eq_true, decide_eq_true_eq]
  exact le_total _ _

theorem clipsSorted_sortClips (l : List TimelineClip) :
    ClipsSorted (sortClips l) := by
  have h := List.sorted_mergeSort clipLe_trans clipLe_total l
  exact h.imp (by intro a b hb; simpa [clipLe] using hb)

/-- C10: after every mutating operation — append (the clip insertion at
duration resolution), timed insertion, drop, drag/reposition,
redistribute, delete — the stored clip list is in non-decreasing
start-offset order: deletion preserves the existing invariant and every
other operation re-sorts unconditionally; moreover the sort is stable, so
two clips with equal start offsets that stand in order before the sort
stand in the same order after it. -/
theorem clips_sorted_invariant (clips : List TimelineClip)
    (hsorted : ClipsSorted clips) (newId : Nat) (audio : GeneratedAudio)
    (t : ℚ) (pending : PendingAppend) (d : ℚ) (draggedId : Nat)
    (selectedClips : List Nat) (g : ℚ) :
    ClipsSorted (resolvePendingAppend pending newId d clips) ∧
    ClipsSorted (addAudioToTimelineAtTime clips newId audio t) ∧
    ClipsSorted (handleTimelineDrop clips newId audio t) ∧
    ClipsSorted (handleClipDrag clips draggedId t) ∧
    ClipsSorted (applyIntervalSpacing clips selectedClips g) ∧
    ClipsSorted (confirmDeleteSelectedClips clips selectedClips) ∧
    (∀ (l : List TimelineClip) (a b : TimelineClip),
      [a, b].Sublist l → a.startTime ≤ b.startTime →
      [a, b].Sublist (sortClips l)) := by
  refine ⟨clipsSorted_sortClips _, clipsSorted_sortClips _,
    clipsSorted_sortClips _, clipsSorted_sortClips _, ?_, ?_, ?_⟩
  · rw [applyIntervalSpacing]
    split
    · exact hsorted
    · split
      · exact hsorted
      · exact clipsSorted_sortClips _
  · rw [confirmDeleteSelectedClips]
    split
    · exact hsorted.sublist (List.filter_sublist _)
    · exact hsorted
  · intro l a b hsub hle
    exact List.pair_sublist_mergeSort clipLe_trans clipLe_total
      (by simpa [clipLe] using hle) hsub

/-- C10 witness: the invariant theorem applied to a concrete sorted list. -/
theorem clips_sorted_invariant_witness :
    ClipsSorted ([] : List TimelineClip) ∧
    ClipsSorted (addAudioToTimelineAtTime [] 1 audioEx 2) :=
  ⟨by simp [ClipsSorted],
    (clips_sorted_invariant [] (by simp [ClipsSorted]) 1 audioEx 2
      ⟨0, audioEx⟩ 0 0 [] 0).2.1⟩

end CreateSpeech
